import Mathlib

/-!
Verification development for the parsefish front end: a shallow embedding of
the lexer (src/internal/yyparse/lex.go) and of the generic AST walker
(src/unnamed/part_000), together with theorems settling the frozen claims
about them.

Conventions of the embedding:
* The scanner cursor of text/scanner is modelled as the list of characters
  that remain in the input.  Peek returns the head (none stands for the EOF
  rune, which text/scanner encodes as -1); Next drops one character and is a
  no-op at EOF, exactly like text/scanner's Next.
* The Go for-loops of the form "for p(s.Peek()) { collect; s.Next() }" are
  rendered with List.takeWhile / List.dropWhile; every predicate used in such
  a loop is false at EOF (none), so stopping at the end of the list is
  faithful.
* skipComment's loop ("for s.Peek() != '\n'") is the one loop whose predicate
  is TRUE at EOF; at end of input it spins forever because Next is a no-op
  there.  Its denotation is therefore Option-valued: none models the
  non-terminating run.
* Positions (line/column/offset) carried by ast.Ident, ast.VarExpr and ast.FD
  are diagnostic metadata; no claim observes them and they are omitted from
  the fragment types.
* Machine integers: the only integer conversion is strconv.Atoi inside
  scanFD; it is modelled on the digit-run inputs that scanFD can pass it,
  including the 64-bit signed range check.
-/

set_option linter.unusedVariables false
set_option linter.unreachableTactic false
set_option linter.unusedTactic false
set_option linter.unnecessarySeqFocus false

/-- The remaining input of the scanner cursor. -/
abbrev Input := List Char

/-- text/scanner Peek: the lookahead rune; none models the EOF sentinel. -/
def peek : Input → Option Char
  | [] => none
  | c :: _ => some c

/-- text/scanner Next: advance one rune; a no-op at EOF. -/
def next : Input → Input
  | [] => []
  | _ :: r => r

/-- Modelled from the spec: the fragment kinds of a composite word
(ast.Ident / ast.VarExpr / ast.FD of the ast package, which is not under
src/); each holds its text or number, positions omitted. -/
inductive Frag where
  | ident (name : String)
  | varExpr (name : String)
  | fd (n : Int)
deriving DecidableEq, Repr

/-- Modelled from the spec: ast.StrExpr, an ordered fragment sequence. -/
abbrev StrExpr := List Frag

/-- The scan-error kinds of lex.go: unexpected EOF in a quoted region,
ExpectIdentError, ExpectVarNameError, and a strconv.Atoi failure. -/
inductive LexErr where
  | unexpectedEOF
  | expectIdent
  | expectVarName
  | atoiErr
deriving DecidableEq, Repr

/-- var singleQuotedSpecials = []rune{-1, '\\', '\''} (none is the EOF rune). -/
def singleQuotedSpecials : List (Option Char) := [none, some '\\', some '\'']

/-- var doubleQuotedSpecials = []rune{-1, '\\', '"', '$'}. -/
def doubleQuotedSpecials : List (Option Char) := [none, some '\\', some '"', some '$']

/-- var specials = []rune{-1, '\t', '\n', '$', '?', '*', '~', '#', '(', ')',
'{', '}', '[', ']', '<', '>', '^', '&', ';', '\'', '"', '\\', ' '}. -/
def specials : List (Option Char) :=
  [none, some '\t', some '\n', some '$', some '?', some '*', some '~', some '#',
   some '(', some ')', some '{', some '}', some '[', some ']', some '<', some '>',
   some '^', some '&', some ';', some '\'', some '"', some '\\', some ' ']

/-- Scanner.isSpecialChar. -/
def isSpecialChar (c : Option Char) : Bool := specials.contains c

/-- Scanner.isSingleQuotedSpecialChar. -/
def isSingleQuotedSpecialChar (c : Option Char) : Bool := singleQuotedSpecials.contains c

/-- Scanner.isDoubleQuotedSpecialChar. -/
def isDoubleQuotedSpecialChar (c : Option Char) : Bool := doubleQuotedSpecials.contains c

/-- Scanner.isSingleQuotedIdentChar. -/
def isSingleQuotedIdentChar (c : Option Char) : Bool := ! isSingleQuotedSpecialChar c

/-- Scanner.isDoubleQuotedIdentChar. -/
def isDoubleQuotedIdentChar (c : Option Char) : Bool := ! isDoubleQuotedSpecialChar c

/-- Scanner.isIdentChar. -/
def isIdentChar (c : Option Char) : Bool := ! isSpecialChar c

/-- Scanner.isNumber ('0' <= c && c <= '9'; false at the EOF rune). -/
def isNumber (c : Option Char) : Bool :=
  match c with
  | some c => decide ('0' ≤ c ∧ c ≤ '9')
  | none => false

/-- Scanner.isLetter. -/
def isLetter (c : Option Char) : Bool :=
  match c with
  | some c => decide ('a' ≤ c ∧ c ≤ 'z') || decide ('A' ≤ c ∧ c ≤ 'Z')
  | none => false

/-- Scanner.isBrank (blank or tab). -/
def isBrank (c : Option Char) : Bool := c = some ' ' || c = some '\t'

/-- Scanner.isVarChar (letter, digit or underscore). -/
def isVarChar (c : Option Char) : Bool := isLetter c || isNumber c || c = some '_'

/-- Scanner.scanSingleQuotedIdent: collect the maximal run of single-quoted
ident characters (the collecting for-loop is takeWhile/dropWhile); an empty
run is ExpectIdentError. -/
def scanSingleQuotedIdent (inp : Input) : Except LexErr (Frag × Input) :=
  let ret := inp.takeWhile (fun c => isSingleQuotedIdentChar (some c))
  if ret.isEmpty then .error .expectIdent
  else .ok (.ident ⟨ret⟩, inp.dropWhile (fun c => isSingleQuotedIdentChar (some c)))

/-- Scanner.scanDoubleQuotedIdent. -/
def scanDoubleQuotedIdent (inp : Input) : Except LexErr (Frag × Input) :=
  let ret := inp.takeWhile (fun c => isDoubleQuotedIdentChar (some c))
  if ret.isEmpty then .error .expectIdent
  else .ok (.ident ⟨ret⟩, inp.dropWhile (fun c => isDoubleQuotedIdentChar (some c)))

/-- Scanner.scanIdent (bare words; stops at any character of specials). -/
def scanIdent (inp : Input) : Except LexErr (Frag × Input) :=
  let ret := inp.takeWhile (fun c => isIdentChar (some c))
  if ret.isEmpty then .error .expectIdent
  else .ok (.ident ⟨ret⟩, inp.dropWhile (fun c => isIdentChar (some c)))

/-- Scanner.scanVar: consume the '$' (s.Next()), then the maximal run of
variable-name characters; an empty name is ExpectVarNameError. -/
def scanVar (inp : Input) : Except LexErr (Frag × Input) :=
  let inp1 := next inp
  let ret := inp1.takeWhile (fun c => isVarChar (some c))
  if ret.isEmpty then .error .expectVarName
  else .ok (.varExpr ⟨ret⟩, inp1.dropWhile (fun c => isVarChar (some c)))

/-- The for-loop body of Scanner.scanSingleQuoted, with str the fragments
collected so far.  Branch order follows the Go switch: EOF, ident char,
closing quote, default (which re-runs scanSingleQuotedIdent on a special
character and therefore fails). -/
def scanSingleQuotedLoop (str : StrExpr) (inp : Input) : Except LexErr (StrExpr × Input) :=
  match h0 : peek inp with
  | none => .error .unexpectedEOF
  | some c =>
    if isSingleQuotedIdentChar (some c) then
      match h1 : scanSingleQuotedIdent inp with
      | .error e => .error e
      | .ok (id, rest) => scanSingleQuotedLoop (str ++ [id]) rest
    else if c = '\'' then .ok (str, next inp)
    else
      match h2 : scanSingleQuotedIdent inp with
      | .error e => .error e
      | .ok (id, rest) => scanSingleQuotedLoop (str ++ [id]) rest
termination_by inp.length
decreasing_by
  all_goals
  · have key : ∀ (j : Input) (fr : Frag) (r2 : Input),
        scanSingleQuotedIdent j = .ok (fr, r2) → r2.length < j.length := by
      intro j fr r2 hk
      simp only [scanSingleQuotedIdent] at hk
      split at hk
      · exact absurd hk (by simp)
      · rename_i hne
        rw [List.isEmpty_iff] at hne
        have hs := congrArg List.length
          (List.takeWhile_append_dropWhile (fun c => isSingleQuotedIdentChar (some c)) j)
        rw [List.length_append] at hs
        have hpos : 0 < (j.takeWhile (fun c => isSingleQuotedIdentChar (some c))).length :=
          List.length_pos.mpr hne
        have : r2 = j.dropWhile (fun c => isSingleQuotedIdentChar (some c)) := by
          simp at hk
          exact hk.2.symm
        subst this
        omega
    first
      | exact key _ _ _ h1
      | exact key _ _ _ h2

/-- Scanner.scanSingleQuoted: consume the opening quote, then loop. -/
def scanSingleQuoted (inp : Input) : Except LexErr (StrExpr × Input) :=
  scanSingleQuotedLoop [] (next inp)

/-- The for-loop body of Scanner.scanDoubleQuoted.  Branch order follows the
Go switch: EOF, ident char, '$' (variable reference), closing quote, default
(a special character: scanDoubleQuotedIdent scans an empty run and fails). -/
def scanDoubleQuotedLoop (str : StrExpr) (inp : Input) : Except LexErr (StrExpr × Input) :=
  match h0 : peek inp with
  | none => .error .unexpectedEOF
  | some c =>
    if isDoubleQuotedIdentChar (some c) then
      match h1 : scanDoubleQuotedIdent inp with
      | .error e => .error e
      | .ok (id, rest) => scanDoubleQuotedLoop (str ++ [id]) rest
    else if c = '$' then
      match h2 : scanVar inp with
      | .error e => .error e
      | .ok (v, rest) => scanDoubleQuotedLoop (str ++ [v]) rest
    else if c = '"' then .ok (str, next inp)
    else
      match h3 : scanDoubleQuotedIdent inp with
      | .error e => .error e
      | .ok (id, rest) => scanDoubleQuotedLoop (str ++ [id]) rest
termination_by inp.length
decreasing_by
  all_goals
  · have keyI : ∀ (j : Input) (fr : Frag) (r2 : Input),
        scanDoubleQuotedIdent j = .ok (fr, r2) → r2.length < j.length := by
      intro j fr r2 hk
      simp only [scanDoubleQuotedIdent] at hk
      split at hk
      · exact absurd hk (by simp)
      · rename_i hne
        rw [List.isEmpty_iff] at hne
        have hs := congrArg List.length
          (List.takeWhile_append_dropWhile (fun c => isDoubleQuotedIdentChar (some c)) j)
        rw [List.length_append] at hs
        have hpos : 0 < (j.takeWhile (fun c => isDoubleQuotedIdentChar (some c))).length :=
          List.length_pos.mpr hne
        have : r2 = j.dropWhile (fun c => isDoubleQuotedIdentChar (some c)) := by
          simp at hk
          exact hk.2.symm
        subst this
        omega
    have keyV : ∀ (j : Input) (fr : Frag) (r2 : Input),
        scanVar j = .ok (fr, r2) → r2.length < j.length := by
      intro j fr r2 hk
      cases j with
      | nil => simp [scanVar, next] at hk
      | cons a r =>
        simp only [scanVar, next] at hk
        split at hk
        · exact absurd hk (by simp)
        · have hd : (r.dropWhile (fun c => isVarChar (some c))).length ≤ r.length := by
            have hs := congrArg List.length
              (List.takeWhile_append_dropWhile (fun c => isVarChar (some c)) r)
            rw [List.length_append] at hs
            omega
          have : r2 = r.dropWhile (fun c => isVarChar (some c)) := by
            simp at hk
            exact hk.2.symm
          subst this
          simp
          omega
    first
      | exact keyI _ _ _ h1
      | exact keyV _ _ _ h2
      | exact keyI _ _ _ h3

/-- Scanner.scanDoubleQuoted: consume the opening quote, then loop. -/
def scanDoubleQuoted (inp : Input) : Except LexErr (StrExpr × Input) :=
  scanDoubleQuotedLoop [] (next inp)

/-- Modelled from the spec: the token discriminants of the generated parser
(single punctuation character codes plus the named token constants used by
lex.go; the grammar tables themselves are not under src/). -/
inductive Tok where
  | char (c : Char)
  | eof
  | str
  | if_
  | else_
  | begin_
  | end_
  | function_
  | redirectToFd
  | appendRedirect
  | errRedirectToFd
  | appendErrRedirect
  | strAndLeftParen
  | rightParenAndStr
  | rightParenAndStrAndLeftParen
deriving DecidableEq, Repr

/-- The for-loop body of Scanner.scanStrs, with withRightParen and str the
loop state.  Branch order follows the Go switch: '$', '"', '\'', ')', '(',
isSpecialChar, default.  The EOF rune is a member of specials, so end of
input takes the isSpecialChar branch. -/
def scanStrsLoop (withRightParen : Bool) (str : StrExpr) (inp : Input) :
    Except LexErr (Tok × StrExpr × Input) :=
  if h1 : peek inp = some '$' then
    match hv : scanVar inp with
    | .error e => .error e
    | .ok (v, rest) => scanStrsLoop withRightParen (str ++ [v]) rest
  else if h2 : peek inp = some '"' then
    match hq : scanDoubleQuoted inp with
    | .error e => .error e
    | .ok (q, rest) => scanStrsLoop withRightParen (str ++ q) rest
  else if h3 : peek inp = some '\'' then
    match hq : scanSingleQuoted inp with
    | .error e => .error e
    | .ok (q, rest) => scanStrsLoop withRightParen (str ++ q) rest
  else if h4 : peek inp = some ')' then
    if str.length > 0 then .ok (.str, str, inp)
    else if withRightParen then
      if str.length = 0 then .ok (.char ')', str, inp)
      else .ok (.rightParenAndStr, str, inp)
    else scanStrsLoop true str (next inp)
  else if h5 : peek inp = some '(' then
    if str.length = 0 ∧ withRightParen = false then .ok (.char '(', str, next inp)
    else if withRightParen then .ok (.rightParenAndStrAndLeftParen, str, next inp)
    else .ok (.strAndLeftParen, str, next inp)
  else if isSpecialChar (peek inp) then
    if withRightParen then .ok (.rightParenAndStr, str, inp)
    else .ok (.str, str, inp)
  else
    match hi : scanIdent inp with
    | .error e => .error e
    | .ok (id, rest) => scanStrsLoop withRightParen (str ++ [id]) rest
termination_by inp.length
decreasing_by
  · -- '$': scanVar succeeded
    have keyV : ∀ (j : Input) (fr : Frag) (r2 : Input),
        scanVar j = .ok (fr, r2) → r2.length < j.length := by
      intro j fr r2 hk
      cases j with
      | nil => simp [scanVar, next] at hk
      | cons a r =>
        simp only [scanVar, next] at hk
        split at hk
        · exact absurd hk (by simp)
        · have hs := congrArg List.length
            (List.takeWhile_append_dropWhile (fun c => isVarChar (some c)) r)
          rw [List.length_append] at hs
          have : r2 = r.dropWhile (fun c => isVarChar (some c)) := by
            simp at hk
            exact hk.2.symm
          subst this
          simp
          omega
    exact keyV _ _ _ hv
  · -- '"': scanDoubleQuoted succeeded; its loop consumes at least the
    -- closing quote, and the wrapper consumed the opening quote
    have keyI : ∀ (j : Input) (fr : Frag) (r2 : Input),
        scanDoubleQuotedIdent j = .ok (fr, r2) → r2.length < j.length := by
      intro j fr r2 hk
      simp only [scanDoubleQuotedIdent] at hk
      split at hk
      · exact absurd hk (by simp)
      · rename_i hne
        rw [List.isEmpty_iff] at hne
        have hs := congrArg List.length
          (List.takeWhile_append_dropWhile (fun c => isDoubleQuotedIdentChar (some c)) j)
        rw [List.length_append] at hs
        have hpos : 0 < (j.takeWhile (fun c => isDoubleQuotedIdentChar (some c))).length :=
          List.length_pos.mpr hne
        have : r2 = j.dropWhile (fun c => isDoubleQuotedIdentChar (some c)) := by
          simp at hk
          exact hk.2.symm
        subst this
        omega
    have keyV : ∀ (j : Input) (fr : Frag) (r2 : Input),
        scanVar j = .ok (fr, r2) → r2.length < j.length := by
      intro j fr r2 hk
      cases j with
      | nil => simp [scanVar, next] at hk
      | cons a r =>
        simp only [scanVar, next] at hk
        split at hk
        · exact absurd hk (by simp)
        · have hs := congrArg List.length
            (List.takeWhile_append_dropWhile (fun c => isVarChar (some c)) r)
          rw [List.length_append] at hs
          have : r2 = r.dropWhile (fun c => isVarChar (some c)) := by
            simp at hk
            exact hk.2.symm
          subst this
          simp
          omega
    have keyLoop : ∀ (k : Nat) (j : Input) (s q2 : StrExpr) (r2 : Input),
        j.length ≤ k → scanDoubleQuotedLoop s j = .ok (q2, r2) → r2.length < j.length := by
      intro k
      induction k with
      | zero =>
        intro j s q2 r2 hlen hk
        rw [scanDoubleQuotedLoop.eq_def] at hk
        have : j = [] := List.eq_nil_of_length_eq_zero (by omega)
        subst this
        simp [peek] at hk
      | succ n ih =>
        intro j s q2 r2 hlen hk
        rw [scanDoubleQuotedLoop.eq_def] at hk
        split at hk
        · exact absurd hk (by simp)
        · rename_i c hc
          split at hk
          · split at hk
            · exact absurd hk (by simp)
            · rename_i id rest hid
              have hlt := keyI _ _ _ hid
              have := ih rest (s ++ [id]) q2 r2 (by omega) hk
              omega
          · split at hk
            · split at hk
              · exact absurd hk (by simp)
              · rename_i v rest hvv
                have hlt := keyV _ _ _ hvv
                have := ih rest (s ++ [v]) q2 r2 (by omega) hk
                omega
            · split at hk
              · simp at hk
                obtain ⟨hq2, hr⟩ := hk
                subst hr
                cases j with
                | nil => simp [peek] at hc
                | cons a r => simp [next]
              · split at hk
                · exact absurd hk (by simp)
                · rename_i id rest hid
                  have hlt := keyI _ _ _ hid
                  have := ih rest (s ++ [id]) q2 r2 (by omega) hk
                  omega
    have hw : ∀ (j : Input) (q2 : StrExpr) (r2 : Input),
        scanDoubleQuoted j = .ok (q2, r2) → r2.length < (next j).length + 1 := by
      intro j q2 r2 hk
      simp only [scanDoubleQuoted] at hk
      have := keyLoop (next j).length (next j) [] q2 r2 (by omega) hk
      omega
    have h6 := hw _ _ _ hq
    cases inp with
    | nil => simp [peek] at h2
    | cons a r =>
      simp [next] at h6
      simp
      omega
  · -- '\'': scanSingleQuoted succeeded
    have keyI : ∀ (j : Input) (fr : Frag) (r2 : Input),
        scanSingleQuotedIdent j = .ok (fr, r2) → r2.length < j.length := by
      intro j fr r2 hk
      simp only [scanSingleQuotedIdent] at hk
      split at hk
      · exact absurd hk (by simp)
      · rename_i hne
        rw [List.isEmpty_iff] at hne
        have hs := congrArg List.length
          (List.takeWhile_append_dropWhile (fun c => isSingleQuotedIdentChar (some c)) j)
        rw [List.length_append] at hs
        have hpos : 0 < (j.takeWhile (fun c => isSingleQuotedIdentChar (some c))).length :=
          List.length_pos.mpr hne
        have : r2 = j.dropWhile (fun c => isSingleQuotedIdentChar (some c)) := by
          simp at hk
          exact hk.2.symm
        subst this
        omega
    have keyLoop : ∀ (k : Nat) (j : Input) (s q2 : StrExpr) (r2 : Input),
        j.length ≤ k → scanSingleQuotedLoop s j = .ok (q2, r2) → r2.length < j.length := by
      intro k
      induction k with
      | zero =>
        intro j s q2 r2 hlen hk
        rw [scanSingleQuotedLoop.eq_def] at hk
        have : j = [] := List.eq_nil_of_length_eq_zero (by omega)
        subst this
        simp [peek] at hk
      | succ n ih =>
        intro j s q2 r2 hlen hk
        rw [scanSingleQuotedLoop.eq_def] at hk
        split at hk
        · exact absurd hk (by simp)
        · rename_i c hc
          split at hk
          · split at hk
            · exact absurd hk (by simp)
            · rename_i id rest hid
              have hlt := keyI _ _ _ hid
              have := ih rest (s ++ [id]) q2 r2 (by omega) hk
              omega
          · split at hk
            · simp at hk
              obtain ⟨hq2, hr⟩ := hk
              subst hr
              cases j with
              | nil => simp [peek] at hc
              | cons a r => simp [next]
            · split at hk
              · exact absurd hk (by simp)
              · rename_i id rest hid
                have hlt := keyI _ _ _ hid
                have := ih rest (s ++ [id]) q2 r2 (by omega) hk
                omega
    have hw : ∀ (j : Input) (q2 : StrExpr) (r2 : Input),
        scanSingleQuoted j = .ok (q2, r2) → r2.length < (next j).length + 1 := by
      intro j q2 r2 hk
      simp only [scanSingleQuoted] at hk
      have := keyLoop (next j).length (next j) [] q2 r2 (by omega) hk
      omega
    have h6 := hw _ _ _ hq
    cases inp with
    | nil => simp [peek] at h3
    | cons a r =>
      simp [next] at h6
      simp
      omega
  · -- ')': s.Next() consumed the paren
    cases inp with
    | nil => simp [peek] at h4
    | cons a r => simp [next]
  · -- default: scanIdent succeeded
    have keyI : ∀ (j : Input) (fr : Frag) (r2 : Input),
        scanIdent j = .ok (fr, r2) → r2.length < j.length := by
      intro j fr r2 hk
      simp only [scanIdent] at hk
      split at hk
      · exact absurd hk (by simp)
      · rename_i hne
        rw [List.isEmpty_iff] at hne
        have hs := congrArg List.length
          (List.takeWhile_append_dropWhile (fun c => isIdentChar (some c)) j)
        rw [List.length_append] at hs
        have hpos : 0 < (j.takeWhile (fun c => isIdentChar (some c))).length :=
          List.length_pos.mpr hne
        have : r2 = j.dropWhile (fun c => isIdentChar (some c)) := by
          simp at hk
          exact hk.2.symm
        subst this
        omega
    exact keyI _ _ _ hi

/-- Scanner.scanStrs: the word assembler, started with no pending right
paren and no fragments. -/
def scanStrs (inp : Input) : Except LexErr (Tok × StrExpr × Input) :=
  scanStrsLoop false [] inp

/-- Scanner.skipBrank: drop the run of blanks/tabs (isBrank is false at EOF,
so the loop stops at end of input). -/
def skipBrank (inp : Input) : Input := inp.dropWhile (fun c => isBrank (some c))

/-- Scanner.skipComment, "for s.Peek() != '\n' { s.Next() }", as a
denotation: if a newline is present the cursor stops on the first '\n'
(which is not consumed); if no newline remains, Peek keeps returning the EOF
rune (which differs from '\n') while Next is a no-op, so the Go loop never
terminates — that diverging run is denoted by none. -/
def skipComment (inp : Input) : Option Input :=
  if inp.any (fun c => c = '\n') then some (inp.dropWhile (fun c => ! (c = '\n'))) else none

/-- The largest value of Go's 64-bit int, 2^63 - 1. -/
def goMaxInt : Int := 9223372036854775807

/-- Numeric value of a digit run. -/
def digitsToNat (l : List Char) : Nat :=
  l.foldl (fun a c => a * 10 + (c.toNat - '0'.toNat)) 0

/-- Modelled from the spec: strconv.Atoi restricted to the inputs scanFD can
pass it — a (possibly empty) run of decimal digits, no sign.  Atoi fails on
the empty string, on any non-digit, and on overflow of the 64-bit int range;
otherwise it returns the numeric value. -/
def atoi (s : List Char) : Option Int :=
  if s.isEmpty then none
  else if ! s.all (fun c => decide ('0' ≤ c ∧ c ≤ '9')) then none
  else if (digitsToNat s : Int) ≤ goMaxInt then some (digitsToNat s) else none

/-- Scanner.scanFD: consume the '&' (s.Next()); if the lookahead is '-',
return FD(-1) WITHOUT consuming the '-'; otherwise collect the maximal digit
run and convert it with Atoi, propagating a conversion failure. -/
def scanFD (inp : Input) : Except LexErr (Frag × Input) :=
  let inp1 := next inp
  if peek inp1 = some '-' then .ok (.fd (-1), inp1)
  else
    let ret := inp1.takeWhile (fun c => isNumber (some c))
    match atoi ret with
    | .none => .error .atoiErr
    | .some n => .ok (.fd n, inp1.dropWhile (fun c => isNumber (some c)))

/-- The keyword table (var keywords = map[int]string{...}).  The Go map is
iterated in unspecified order, but the five keyword strings are pairwise
distinct, so at most one entry can match and an association list is an
equivalent rendering. -/
def keywords : List (Tok × String) :=
  [(.if_, "if"), (.else_, "else"), (.begin_, "begin"), (.end_, "end"), (.function_, "function")]

/-- The fragment-concatenation part of Scanner.tokenOf: the concatenated text
of the word if every fragment is an Ident, none as soon as a non-Ident
fragment is seen (the Go loop returns (0, false) on the first non-Ident). -/
def tokenOfLit : StrExpr → Option String
  | [] => some ""
  | .ident n :: r => (tokenOfLit r).map (fun s => n ++ s)
  | _ :: _ => none

/-- Scanner.tokenOf: the keyword token for a word whose fragments are all
Idents and whose concatenated text matches the keyword table; none
otherwise. -/
def tokenOf (e : StrExpr) : Option Tok :=
  match tokenOfLit e with
  | .none => .none
  | .some lit => (keywords.find? (fun kv => kv.2 == lit)).map (fun kv => kv.1)

/-- Modelled from the spec: the two payload slots of the generated parser's
yySymType that lex.go assigns (lval.expr for redirect FD payloads, lval.str
for word payloads); the generated type itself is not under src/. -/
structure YYSym where
  expr : Option StrExpr
  str : Option StrExpr
deriving DecidableEq, Repr

/-- The empty yySymType value (no payload assigned). -/
def noSym : YYSym := ⟨none, none⟩

/-- The outcome of one Lexer.mainLex call: a token with its payload slots and
the remaining input, a scan error (which Lexer.Lex turns into a panic), or
divergence (the skipComment loop spinning at EOF, see skipComment). -/
inductive LexResult where
  | diverges
  | fail (e : LexErr)
  | tok (t : Tok) (lval : YYSym) (rest : Input)
deriving DecidableEq, Repr

/-- Lexer.mainLex: skip blanks, then dispatch on the lookahead character:
EOF token; '#' comment skip and retry (goto RETRY); '>' and '^' redirect
scanning; ';', '\n', '|', '<' as bare single-character tokens; everything
else goes to the word assembler, whose STR results undergo keyword
resolution (keywords drop the payload). -/
def mainLex (inp : Input) : LexResult :=
  let inp1 := skipBrank inp
  if h0 : peek inp1 = none then .tok .eof noSym inp1
  else if h1 : peek inp1 = some '#' then
    match hsc : skipComment inp1 with
    | .none => .diverges
    | .some inp2 => mainLex inp2
  else if h2 : peek inp1 = some '>' then
    let inp2 := next inp1
    if peek inp2 = some '&' then
      match scanFD inp2 with
      | .error e => .fail e
      | .ok (fd, rest) => .tok .redirectToFd ⟨some [fd], none⟩ rest
    else if peek inp2 = some '>' then .tok .appendRedirect noSym inp2
    else .tok (.char '>') noSym inp2
  else if h3 : peek inp1 = some '^' then
    let inp2 := next inp1
    if peek inp2 = some '&' then
      match scanFD inp2 with
      | .error e => .fail e
      | .ok (fd, rest) => .tok .errRedirectToFd ⟨some [fd], none⟩ rest
    else if peek inp2 = some '^' then .tok .appendErrRedirect noSym inp2
    else .tok (.char '^') noSym inp2
  else if h4 : peek inp1 = some ';' then .tok (.char ';') noSym (next inp1)
  else if h5 : peek inp1 = some '\n' then .tok (.char '\n') noSym (next inp1)
  else if h6 : peek inp1 = some '|' then .tok (.char '|') noSym (next inp1)
  else if h7 : peek inp1 = some '<' then .tok (.char '<') noSym (next inp1)
  else
    match scanStrs inp1 with
    | .error e => .fail e
    | .ok (t, v, rest) =>
      if t ≠ .str then .tok t ⟨none, some v⟩ rest
      else
        match tokenOf v with
        | .some kw => .tok kw noSym rest
        | .none => .tok .str ⟨none, some v⟩ rest
termination_by inp.length
decreasing_by
  -- the goto RETRY loop: skipBrank only drops characters, and skipComment,
  -- entered with '#' as the lookahead, consumes at least that '#'
  have hv : inp1 = skipBrank inp := rfl
  have hbr : inp1.length ≤ inp.length := by
    rw [hv]
    have hs := congrArg List.length
      (List.takeWhile_append_dropWhile (fun c => isBrank (some c)) inp)
    rw [List.length_append] at hs
    simp only [skipBrank]
    omega
  clear_value inp1
  simp only [skipComment] at hsc
  split at hsc
  · rename_i hany
    simp at hsc
    subst hsc
    cases inp1 with
    | nil => simp [peek] at h1
    | cons a r =>
      simp [peek] at h1
      subst h1
      have hd : (r.dropWhile (fun c => ! (c = '\n'))).length ≤ r.length := by
        have hs := congrArg List.length
          (List.takeWhile_append_dropWhile (fun c => ! (c = '\n')) r)
        rw [List.length_append] at hs
        omega
      simp [List.dropWhile]
      simp at hbr
      omega
  · exact absurd hsc (by simp)

/-- Modelled from the spec: the AST node family of the ast package (not under
src/), shaped after the variants the Walk switch in src/unnamed/part_000
dispatches on: expression sequences (Exprs), statement sequences (Stmts),
command invocation (CmdStmt: command expression and argument slice), block
(BeginStmt), conditional (IfStmt: condition, then-body, else-body), function
definition (FunctionStmt: parameters and body), pipeline (PipeStmt) and
redirection (RedirectStmt), plus the leaf expressions Ident, VarExpr and FD
that fall through the switch.  Node-interface values can be nil in Go, so
every child position is an Option; a slice converted to an Exprs/Stmts node
is a non-nil interface value even when the slice itself is nil or empty. -/
inductive Node where
  | exprs (es : List (Option Node))
  | stmts (ss : List (Option Node))
  | cmdStmt (cmd : Option Node) (args : List (Option Node))
  | beginStmt (body : List (Option Node))
  | ifStmt (cond : Option Node) (body : List (Option Node)) (els : List (Option Node))
  | functionStmt (args : List (Option Node)) (body : List (Option Node))
  | pipeStmt (lhs : Option Node) (rhs : Option Node)
  | redirectStmt (lhs : Option Node) (rhs : Option Node)
  | ident (name : String)
  | varExpr (name : String)
  | fd (n : Int)

mutual
/-- Auxiliary size measure for the Walk recursion: wrapper nodes built on the
fly by Walk (Stmts/Exprs around a slice) must weigh more than the slice they
wrap but less than the node whose field the slice is, so composite nodes
cost 6 and the two sequence wrappers cost 1. -/
def nodeW : Node → Nat
  | .exprs es => 1 + listW es
  | .stmts ss => 1 + listW ss
  | .cmdStmt cmd args => 6 + optW cmd + listW args
  | .beginStmt body => 6 + listW body
  | .ifStmt c b e => 6 + optW c + listW b + listW e
  | .functionStmt a b => 6 + listW a + listW b
  | .pipeStmt l r => 6 + optW l + optW r
  | .redirectStmt l r => 6 + optW l + optW r
  | .ident _ => 1
  | .varExpr _ => 1
  | .fd _ => 1

/-- Weight of an optional node (nil weighs nothing). -/
def optW : Option Node → Nat
  | none => 0
  | some n => nodeW n

/-- Weight of a node slice. -/
def listW : List (Option Node) → Nat
  | [] => 0
  | x :: xs => optW x + 1 + listW xs
end

/-- One callback invocation of the walk: the argument Walk passed to the
visitor — some node on entry, none (the nil exit marker) on node exit. -/
abbrev Event := Option Node

mutual
/-- Walk of src/unnamed/part_000, instrumented with the chronological list of
callback invocations it performs.  The Go Visitor type func(Node) Visitor is
a possibly-stateful function value; it is embedded as a coalgebra: a state
type S with a step function, where the visitor value nil is none.  Walk
returns early on a nil node BEFORE invoking the visitor; otherwise it calls
f := v(node) and recurses into the children with f.  Go never checks f for
nil, so when v(node) returned nil and a non-nil child is walked, the child
call applies the nil function value — a runtime panic, denoted .error (). -/
def Walk {S : Type} (step : S → Option Node → Option S) :
    Option S → Option Node → Except Unit (List Event)
  | _, none => .ok []
  | none, some _ => .error ()
  | some s, some n =>
    match walkChildren step (step s (some n)) n with
    | .error e => .error e
    | .ok inner => .ok (some n :: (inner ++ [none]))
      -- the trailing none is the unconditional v(nil) exit call; its returned
      -- continuation is discarded by Go, so no state is threaded from it
termination_by v o => (optW o, 1)
decreasing_by all_goals (simp [Prod.lex_iff, nodeW, optW, listW] <;> omega)

/-- The switch body of Walk: the per-variant child traversal, in source
order.  CmdStmt walks Cmd then its argument slice through walkExprs; a
BeginStmt body is passed to Walk directly (wrapped as a Stmts node, with no
emptiness guard); IfStmt walks cond, then then- and else-bodies through
walkStmts; FunctionStmt walks parameters through walkExprs and body through
walkStmts; Pipe/Redirect walk Lhs then Rhs; leaves have no children. -/
def walkChildren {S : Type} (step : S → Option Node → Option S) (f : Option S) :
    Node → Except Unit (List Event)
  | .exprs es => walkList step f es
  | .stmts ss => walkList step f ss
  | .cmdStmt cmd args =>
    match Walk step f cmd with
    | .error er => .error er
    | .ok t1 =>
      match walkExprs step f args with
      | .error er => .error er
      | .ok t2 => .ok (t1 ++ t2)
  | .beginStmt body => Walk step f (some (.stmts body))
  | .ifStmt c b e =>
    match Walk step f c with
    | .error er => .error er
    | .ok t1 =>
      match walkStmts step f b with
      | .error er => .error er
      | .ok t2 =>
        match walkStmts step f e with
        | .error er => .error er
        | .ok t3 => .ok (t1 ++ t2 ++ t3)
  | .functionStmt a b =>
    match walkExprs step f a with
    | .error er => .error er
    | .ok t1 =>
      match walkStmts step f b with
      | .error er => .error er
      | .ok t2 => .ok (t1 ++ t2)
  | .pipeStmt l r =>
    match Walk step f l with
    | .error er => .error er
    | .ok t1 =>
      match Walk step f r with
      | .error er => .error er
      | .ok t2 => .ok (t1 ++ t2)
  | .redirectStmt l r =>
    match Walk step f l with
    | .error er => .error er
    | .ok t1 =>
      match Walk step f r with
      | .error er => .error er
      | .ok t2 => .ok (t1 ++ t2)
  | .ident _ => .ok []
  | .varExpr _ => .ok []
  | .fd _ => .ok []
termination_by n => (nodeW n, 0)
decreasing_by all_goals (simp [Prod.lex_iff, nodeW, optW, listW] <;> omega)

/-- walkStmts of src/unnamed/part_000: walk a statement slice as a Stmts
node, but only when it is non-nil and non-empty (both have length 0). -/
def walkStmts {S : Type} (step : S → Option Node → Option S) (f : Option S)
    (l : List (Option Node)) : Except Unit (List Event) :=
  if l.length > 0 then Walk step f (some (.stmts l)) else .ok []
termination_by (listW l + 2, 0)
decreasing_by all_goals (simp [Prod.lex_iff, nodeW, optW, listW] <;> omega)

/-- walkExprs of src/unnamed/part_000, the Exprs counterpart of walkStmts. -/
def walkExprs {S : Type} (step : S → Option Node → Option S) (f : Option S)
    (l : List (Option Node)) : Except Unit (List Event) :=
  if l.length > 0 then Walk step f (some (.exprs l)) else .ok []
termination_by (listW l + 2, 0)
decreasing_by all_goals (simp [Prod.lex_iff, nodeW, optW, listW] <;> omega)

/-- The for-loops of the Exprs and Stmts cases of Walk's switch: walk each
element in order with the continuation f. -/
def walkList {S : Type} (step : S → Option Node → Option S) (f : Option S) :
    List (Option Node) → Except Unit (List Event)
  | [] => .ok []
  | x :: xs =>
    match Walk step f x with
    | .error er => .error er
    | .ok t1 =>
      match walkList step f xs with
      | .error er => .error er
      | .ok t2 => .ok (t1 ++ t2)
termination_by l => (listW l, 2)
decreasing_by all_goals (simp [Prod.lex_iff, nodeW, optW, listW] <;> omega)
end

/-- The inspector adapter of src/unnamed/part_000: a boolean callback used as
a Visitor; it has a single state and stops (returns the nil Visitor) exactly
when the callback returns false. -/
def inspectStep (f : Option Node → Bool) : Unit → Option Node → Option Unit :=
  fun _ x => if f x then some () else none

/-- Inspect of src/unnamed/part_000: Walk with the inspector visitor. -/
def Inspect (f : Option Node → Bool) (node : Option Node) : Except Unit (List Event) :=
  Walk (inspectStep f) (some ()) node

/-- Signed contribution of one callback invocation to the bracket depth: an
entry opens (+1), the exit marker closes (-1). -/
def evDelta : Event → Int
  | some _ => 1
  | none => -1

/-- Number of entry invocations in a trace. -/
def entries (tr : List Event) : Nat := tr.countP (fun e => e.isSome)

/-- Number of exit-marker invocations in a trace. -/
def exitsCount (tr : List Event) : Nat := tr.countP (fun e => e.isNone)

/-- Net bracket depth of a trace (entries minus exits). -/
def netDepth (tr : List Event) : Int := (tr.map evDelta).sum

/-- Minimum over all prefixes of the net bracket depth (0 for the empty
prefix); a trace is a well-formed bracketing exactly when this minimum is 0
and the total net depth is 0. -/
def minPre : List Event → Int
  | [] => 0
  | e :: tr => min 0 (evDelta e + minPre tr)

/-- Modelled from the spec: whether a fragment is a literal Ident (the
keyword-resolution wording: "every fragment in the word is an Ident"). -/
def isIdentFrag : Frag → Bool
  | .ident _ => true
  | _ => false

/-- Text of a fragment for concatenation purposes (non-Ident fragments
contribute nothing; they are excluded by isIdentFrag wherever this is
used). -/
def fragText : Frag → String
  | .ident n => n
  | _ => ""

/-- Modelled from the spec: concatenation of the fragments' text. -/
def litOf : StrExpr → String
  | [] => ""
  | f :: r => fragText f ++ litOf r

/-- Modelled from the spec, keyword resolution (section 4.2): if and only if
every fragment in the word is an Ident, concatenate the fragments' text and
check it against the fixed keyword table; the matching keyword code, if
any. -/
def specKeywordOf (e : StrExpr) : Option Tok :=
  if e.all isIdentFrag then (keywords.find? (fun kv => kv.2 == litOf e)).map (fun kv => kv.1)
  else none

/-! ## Branch equations

One rewriting lemma per reachable branch of each recursive scanner, stated
with ordinary (non-dependent) matches so that concrete runs and inductions
can unfold the scanners step by step. -/

theorem scanSingleQuotedLoop_eof (str : StrExpr) :
    scanSingleQuotedLoop str [] = .error .unexpectedEOF := by
  rw [scanSingleQuotedLoop.eq_def]
  simp [peek]

theorem scanSingleQuotedLoop_close (str : StrExpr) (inp : Input)
    (hp : peek inp = some '\'') :
    scanSingleQuotedLoop str inp = .ok (str, next inp) := by
  rw [scanSingleQuotedLoop.eq_def]
  split <;> simp_all [isSingleQuotedIdentChar, isSingleQuotedSpecialChar, singleQuotedSpecials]

theorem scanSingleQuotedLoop_step (str : StrExpr) (inp : Input) (c : Char)
    (hp : peek inp = some c) (hq : c ≠ '\'') :
    scanSingleQuotedLoop str inp =
      match scanSingleQuotedIdent inp with
      | .error e => .error e
      | .ok (id, rest) => scanSingleQuotedLoop (str ++ [id]) rest := by
  rw [scanSingleQuotedLoop.eq_def]
  split <;> simp_all
  all_goals (split <;> simp_all)

theorem scanDoubleQuotedLoop_eof (str : StrExpr) :
    scanDoubleQuotedLoop str [] = .error .unexpectedEOF := by
  rw [scanDoubleQuotedLoop.eq_def]
  simp [peek]

theorem scanDoubleQuotedLoop_close (str : StrExpr) (inp : Input)
    (hp : peek inp = some '"') :
    scanDoubleQuotedLoop str inp = .ok (str, next inp) := by
  rw [scanDoubleQuotedLoop.eq_def]
  split <;> simp_all [isDoubleQuotedIdentChar, isDoubleQuotedSpecialChar, doubleQuotedSpecials]

theorem scanDoubleQuotedLoop_var (str : StrExpr) (inp : Input)
    (hp : peek inp = some '$') :
    scanDoubleQuotedLoop str inp =
      match scanVar inp with
      | .error e => .error e
      | .ok (v, rest) => scanDoubleQuotedLoop (str ++ [v]) rest := by
  rw [scanDoubleQuotedLoop.eq_def]
  split <;> simp_all [isDoubleQuotedIdentChar, isDoubleQuotedSpecialChar, doubleQuotedSpecials]
  all_goals (split <;> simp_all)

theorem scanDoubleQuotedLoop_step (str : StrExpr) (inp : Input) (c : Char)
    (hp : peek inp = some c) (hq1 : c ≠ '$') (hq2 : c ≠ '"') :
    scanDoubleQuotedLoop str inp =
      match scanDoubleQuotedIdent inp with
      | .error e => .error e
      | .ok (id, rest) => scanDoubleQuotedLoop (str ++ [id]) rest := by
  rw [scanDoubleQuotedLoop.eq_def]
  split <;> simp_all
  all_goals (split <;> simp_all)

theorem scanStrsLoop_var (w : Bool) (str : StrExpr) (inp : Input)
    (hp : peek inp = some '$') :
    scanStrsLoop w str inp =
      match scanVar inp with
      | .error e => .error e
      | .ok (v, rest) => scanStrsLoop w (str ++ [v]) rest := by
  rw [scanStrsLoop.eq_def]
  split <;> simp_all
  all_goals (split <;> simp_all)

theorem scanStrsLoop_dq (w : Bool) (str : StrExpr) (inp : Input)
    (hp : peek inp = some '"') :
    scanStrsLoop w str inp =
      match scanDoubleQuoted inp with
      | .error e => .error e
      | .ok (q, rest) => scanStrsLoop w (str ++ q) rest := by
  rw [scanStrsLoop.eq_def]
  split <;> simp_all
  all_goals (split <;> simp_all)

theorem scanStrsLoop_sq (w : Bool) (str : StrExpr) (inp : Input)
    (hp : peek inp = some '\'') :
    scanStrsLoop w str inp =
      match scanSingleQuoted inp with
      | .error e => .error e
      | .ok (q, rest) => scanStrsLoop w (str ++ q) rest := by
  rw [scanStrsLoop.eq_def]
  split <;> simp_all
  all_goals (split <;> simp_all)

theorem scanStrsLoop_rparen_word (w : Bool) (str : StrExpr) (inp : Input)
    (hp : peek inp = some ')') (hs : str.length > 0) :
    scanStrsLoop w str inp = .ok (.str, str, inp) := by
  rw [scanStrsLoop.eq_def]
  split <;> simp_all

theorem scanStrsLoop_rparen_bare (str : StrExpr) (inp : Input)
    (hp : peek inp = some ')') (hs : str = []) :
    scanStrsLoop true str inp = .ok (.char ')', str, inp) := by
  rw [scanStrsLoop.eq_def]
  split <;> simp_all

theorem scanStrsLoop_rparen_consume (str : StrExpr) (inp : Input)
    (hp : peek inp = some ')') (hs : str = []) :
    scanStrsLoop false str inp = scanStrsLoop true str (next inp) := by
  rw [scanStrsLoop.eq_def]
  split <;> simp_all

theorem scanStrsLoop_lparen (w : Bool) (str : StrExpr) (inp : Input)
    (hp : peek inp = some '(') :
    scanStrsLoop w str inp =
      if str.length = 0 ∧ w = false then .ok (.char '(', str, next inp)
      else if w then .ok (.rightParenAndStrAndLeftParen, str, next inp)
      else .ok (.strAndLeftParen, str, next inp) := by
  rw [scanStrsLoop.eq_def]
  split <;> simp_all

theorem scanStrsLoop_special (w : Bool) (str : StrExpr) (inp : Input)
    (hps : isSpecialChar (peek inp) = true)
    (hne1 : peek inp ≠ some '$') (hne2 : peek inp ≠ some '"')
    (hne3 : peek inp ≠ some '\'') (hne4 : peek inp ≠ some ')')
    (hne5 : peek inp ≠ some '(') :
    scanStrsLoop w str inp =
      if w then .ok (.rightParenAndStr, str, inp) else .ok (.str, str, inp) := by
  rw [scanStrsLoop.eq_def]
  split <;> simp_all

theorem scanStrsLoop_default (w : Bool) (str : StrExpr) (inp : Input)
    (hps : isSpecialChar (peek inp) = false) :
    scanStrsLoop w str inp =
      match scanIdent inp with
      | .error e => .error e
      | .ok (id, rest) => scanStrsLoop w (str ++ [id]) rest := by
  have hne1 : peek inp ≠ some '$' := by
    intro h
    rw [h] at hps
    simp [isSpecialChar, specials] at hps
  have hne2 : peek inp ≠ some '"' := by
    intro h
    rw [h] at hps
    simp [isSpecialChar, specials] at hps
  have hne3 : peek inp ≠ some '\'' := by
    intro h
    rw [h] at hps
    simp [isSpecialChar, specials] at hps
  have hne4 : peek inp ≠ some ')' := by
    intro h
    rw [h] at hps
    simp [isSpecialChar, specials] at hps
  have hne5 : peek inp ≠ some '(' := by
    intro h
    rw [h] at hps
    simp [isSpecialChar, specials] at hps
  rw [scanStrsLoop.eq_def]
  split <;> simp_all
  all_goals (split <;> simp_all)

theorem mainLex_eof (inp : Input) (h : peek (skipBrank inp) = none) :
    mainLex inp = .tok .eof noSym (skipBrank inp) := by
  rw [mainLex.eq_def]
  simp only []
  split <;> simp_all

theorem mainLex_comment (inp : Input) (h : peek (skipBrank inp) = some '#') :
    mainLex inp =
      match skipComment (skipBrank inp) with
      | .none => .diverges
      | .some inp2 => mainLex inp2 := by
  rw [mainLex.eq_def]
  simp only []
  split <;> simp_all
  all_goals (split <;> simp_all)

theorem mainLex_gt (inp : Input) (h : peek (skipBrank inp) = some '>') :
    mainLex inp =
      (if peek (next (skipBrank inp)) = some '&' then
        match scanFD (next (skipBrank inp)) with
        | .error e => .fail e
        | .ok (fd, rest) => .tok .redirectToFd ⟨some [fd], none⟩ rest
      else if peek (next (skipBrank inp)) = some '>' then
        .tok .appendRedirect noSym (next (skipBrank inp))
      else .tok (.char '>') noSym (next (skipBrank inp))) := by
  rw [mainLex.eq_def]
  simp only []
  split <;> simp_all

theorem mainLex_caret (inp : Input) (h : peek (skipBrank inp) = some '^') :
    mainLex inp =
      (if peek (next (skipBrank inp)) = some '&' then
        match scanFD (next (skipBrank inp)) with
        | .error e => .fail e
        | .ok (fd, rest) => .tok .errRedirectToFd ⟨some [fd], none⟩ rest
      else if peek (next (skipBrank inp)) = some '^' then
        .tok .appendErrRedirect noSym (next (skipBrank inp))
      else .tok (.char '^') noSym (next (skipBrank inp))) := by
  rw [mainLex.eq_def]
  simp only []
  split <;> simp_all

theorem mainLex_punct (inp : Input) (c : Char) (h : peek (skipBrank inp) = some c)
    (hc : c = ';' ∨ c = '\n' ∨ c = '|' ∨ c = '<') :
    mainLex inp = .tok (.char c) noSym (next (skipBrank inp)) := by
  rw [mainLex.eq_def]
  simp only []
  rcases hc with hc | hc | hc | hc <;> subst hc <;> (split <;> simp_all)

theorem mainLex_word (inp : Input)
    (h0 : peek (skipBrank inp) ≠ none)
    (h1 : peek (skipBrank inp) ≠ some '#')
    (h2 : peek (skipBrank inp) ≠ some '>')
    (h3 : peek (skipBrank inp) ≠ some '^')
    (h4 : peek (skipBrank inp) ≠ some ';')
    (h5 : peek (skipBrank inp) ≠ some '\n')
    (h6 : peek (skipBrank inp) ≠ some '|')
    (h7 : peek (skipBrank inp) ≠ some '<') :
    mainLex inp =
      match scanStrs (skipBrank inp) with
      | .error e => .fail e
      | .ok (t, v, rest) =>
        if t ≠ .str then .tok t ⟨none, some v⟩ rest
        else
          match tokenOf v with
          | .some kw => .tok kw noSym rest
          | .none => .tok .str ⟨none, some v⟩ rest := by
  rw [mainLex.eq_def]
  simp only []
  split <;> simp_all

/-! ## Bracketing of walk traces -/

theorem netDepth_append (a b : List Event) :
    netDepth (a ++ b) = netDepth a + netDepth b := by
  simp [netDepth]

theorem minPre_nonpos (l : List Event) : minPre l ≤ 0 := by
  cases l with
  | nil => simp [minPre]
  | cons e tr => simp [minPre]

theorem minPre_append (a b : List Event) :
    minPre (a ++ b) = min (minPre a) (netDepth a + minPre b) := by
  induction a with
  | nil =>
    have := minPre_nonpos b
    simp [minPre, netDepth]
    omega
  | cons e tr ih =>
    simp [minPre, netDepth, ih] at *
    omega

theorem netDepth_count (tr : List Event) :
    netDepth tr = (entries tr : Int) - (exitsCount tr : Int) := by
  induction tr with
  | nil => simp [netDepth, entries, exitsCount]
  | cons e r ih =>
    cases e with
    | none => simp [netDepth, entries, exitsCount, evDelta, List.countP_cons] at *; omega
    | some n => simp [netDepth, entries, exitsCount, evDelta, List.countP_cons] at *; omega

theorem balanced_append (a b : List Event)
    (ha1 : netDepth a = 0) (ha2 : minPre a = 0)
    (hb1 : netDepth b = 0) (hb2 : minPre b = 0) :
    netDepth (a ++ b) = 0 ∧ minPre (a ++ b) = 0 := by
  rw [netDepth_append, minPre_append, ha1, ha2, hb1, hb2]
  simp

theorem balanced_bracket (n : Node) (tr : List Event)
    (h1 : netDepth tr = 0) (h2 : minPre tr = 0) :
    netDepth (some n :: (tr ++ [none])) = 0 ∧ minPre (some n :: (tr ++ [none])) = 0 := by
  constructor
  · simp [netDepth, evDelta] at *
    omega
  · simp [minPre, minPre_append, netDepth_append, evDelta, h1, h2]

/-- The master walk lemma: with a visitor that never signals stop, every one
of the five traversal functions succeeds (no panic) and produces a trace
that is a well-formed bracketing (net depth 0, no prefix closing more than
it opened).  Proved by strong induction on a combined measure. -/
theorem walkAux {S : Type} (step : S → Option Node → Option S)
    (H : ∀ s x, (step s x).isSome = true) (k : Nat) :
    (∀ (o : Option Node) (s : S), 4 * optW o + 1 ≤ k →
      ∃ tr, Walk step (some s) o = .ok tr ∧ netDepth tr = 0 ∧ minPre tr = 0) ∧
    (∀ (n : Node) (s : S), 4 * nodeW n ≤ k →
      ∃ tr, walkChildren step (some s) n = .ok tr ∧ netDepth tr = 0 ∧ minPre tr = 0) ∧
    (∀ (l : List (Option Node)) (s : S), 4 * (listW l + 2) ≤ k →
      ∃ tr, walkStmts step (some s) l = .ok tr ∧ netDepth tr = 0 ∧ minPre tr = 0) ∧
    (∀ (l : List (Option Node)) (s : S), 4 * (listW l + 2) ≤ k →
      ∃ tr, walkExprs step (some s) l = .ok tr ∧ netDepth tr = 0 ∧ minPre tr = 0) ∧
    (∀ (l : List (Option Node)) (s : S), 4 * listW l + 2 ≤ k →
      ∃ tr, walkList step (some s) l = .ok tr ∧ netDepth tr = 0 ∧ minPre tr = 0) := by
  induction k using Nat.strong_induction_on with
  | _ k IH =>
  refine ⟨?_, ?_, ?_, ?_, ?_⟩
  · -- Walk
    intro o s hm
    cases o with
    | none =>
      refine ⟨[], by simp [Walk], by simp [netDepth], by simp [minPre]⟩
    | some n =>
      obtain ⟨s', hstep⟩ := Option.isSome_iff_exists.mp (H s (some n))
      obtain ⟨tr, htr, hn, hp⟩ :=
        ((IH (k - 1) (by simp [optW] at hm; omega)).2.1) n s'
          (by simp [optW] at hm; omega)
      refine ⟨some n :: (tr ++ [none]), ?_, ?_, ?_⟩
      · rw [Walk.eq_def]
        simp only [hstep, htr]
      · exact (balanced_bracket n tr hn hp).1
      · exact (balanced_bracket n tr hn hp).2
  · -- walkChildren
    intro n s hm
    cases n with
    | exprs es =>
      obtain ⟨tr, htr, hn, hp⟩ :=
        ((IH (k - 1) (by simp [nodeW] at hm; omega)).2.2.2.2) es s
          (by simp [nodeW] at hm; omega)
      exact ⟨tr, by simpa [walkChildren] using htr, hn, hp⟩
    | stmts ss =>
      obtain ⟨tr, htr, hn, hp⟩ :=
        ((IH (k - 1) (by simp [nodeW] at hm; omega)).2.2.2.2) ss s
          (by simp [nodeW] at hm; omega)
      exact ⟨tr, by simpa [walkChildren] using htr, hn, hp⟩
    | cmdStmt cmd args =>
      obtain ⟨tr1, htr1, hn1, hp1⟩ :=
        ((IH (k - 1) (by simp [nodeW] at hm; omega)).1) cmd s
          (by simp [nodeW] at hm; omega)
      obtain ⟨tr2, htr2, hn2, hp2⟩ :=
        ((IH (k - 1) (by simp [nodeW] at hm; omega)).2.2.2.1) args s
          (by simp [nodeW] at hm; omega)
      refine ⟨tr1 ++ tr2, ?_, (balanced_append _ _ hn1 hp1 hn2 hp2).1,
        (balanced_append _ _ hn1 hp1 hn2 hp2).2⟩
      rw [walkChildren.eq_def]
      simp only [htr1, htr2]
    | beginStmt body =>
      obtain ⟨tr, htr, hn, hp⟩ :=
        ((IH (k - 1) (by simp [nodeW] at hm; omega)).1) (some (.stmts body)) s
          (by simp [nodeW, optW] at hm ⊢; omega)
      exact ⟨tr, by simpa [walkChildren] using htr, hn, hp⟩
    | ifStmt c b e =>
      obtain ⟨tr1, htr1, hn1, hp1⟩ :=
        ((IH (k - 1) (by simp [nodeW] at hm; omega)).1) c s
          (by simp [nodeW] at hm; omega)
      obtain ⟨tr2, htr2, hn2, hp2⟩ :=
        ((IH (k - 1) (by simp [nodeW] at hm; omega)).2.2.1) b s
          (by simp [nodeW] at hm; omega)
      obtain ⟨tr3, htr3, hn3, hp3⟩ :=
        ((IH (k - 1) (by simp [nodeW] at hm; omega)).2.2.1) e s
          (by simp [nodeW] at hm; omega)
      have hb12 := balanced_append _ _ hn1 hp1 hn2 hp2
      have hb := balanced_append _ _ hb12.1 hb12.2 hn3 hp3
      refine ⟨tr1 ++ tr2 ++ tr3, ?_, hb.1, hb.2⟩
      rw [walkChildren.eq_def]
      simp only [htr1, htr2, htr3]
    | functionStmt a b =>
      obtain ⟨tr1, htr1, hn1, hp1⟩ :=
        ((IH (k - 1) (by simp [nodeW] at hm; omega)).2.2.2.1) a s
          (by simp [nodeW] at hm; omega)
      obtain ⟨tr2, htr2, hn2, hp2⟩ :=
        ((IH (k - 1) (by simp [nodeW] at hm; omega)).2.2.1) b s
          (by simp [nodeW] at hm; omega)
      refine ⟨tr1 ++ tr2, ?_, (balanced_append _ _ hn1 hp1 hn2 hp2).1,
        (balanced_append _ _ hn1 hp1 hn2 hp2).2⟩
      rw [walkChildren.eq_def]
      simp only [htr1, htr2]
    | pipeStmt l r =>
      obtain ⟨tr1, htr1, hn1, hp1⟩ :=
        ((IH (k - 1) (by simp [nodeW] at hm; omega)).1) l s
          (by simp [nodeW] at hm; omega)
      obtain ⟨tr2, htr2, hn2, hp2⟩ :=
        ((IH (k - 1) (by simp [nodeW] at hm; omega)).1) r s
          (by simp [nodeW] at hm; omega)
      refine ⟨tr1 ++ tr2, ?_, (balanced_append _ _ hn1 hp1 hn2 hp2).1,
        (balanced_append _ _ hn1 hp1 hn2 hp2).2⟩
      rw [walkChildren.eq_def]
      simp only [htr1, htr2]
    | redirectStmt l r =>
      obtain ⟨tr1, htr1, hn1, hp1⟩ :=
        ((IH (k - 1) (by simp [nodeW] at hm; omega)).1) l s
          (by simp [nodeW] at hm; omega)
      obtain ⟨tr2, htr2, hn2, hp2⟩ :=
        ((IH (k - 1) (by simp [nodeW] at hm; omega)).1) r s
          (by simp [nodeW] at hm; omega)
      refine ⟨tr1 ++ tr2, ?_, (balanced_append _ _ hn1 hp1 hn2 hp2).1,
        (balanced_append _ _ hn1 hp1 hn2 hp2).2⟩
      rw [walkChildren.eq_def]
      simp only [htr1, htr2]
    | ident name =>
      exact ⟨[], by simp [walkChildren], by simp [netDepth], by simp [minPre]⟩
    | varExpr name =>
      exact ⟨[], by simp [walkChildren], by simp [netDepth], by simp [minPre]⟩
    | fd n =>
      exact ⟨[], by simp [walkChildren], by simp [netDepth], by simp [minPre]⟩
  · -- walkStmts
    intro l s hm
    by_cases hl : l.length > 0
    · obtain ⟨tr, htr, hn, hp⟩ :=
        ((IH (k - 1) (by omega)).1) (some (.stmts l)) s
          (by simp [optW, nodeW]; omega)
      exact ⟨tr, by simpa [walkStmts, hl] using htr, hn, hp⟩
    · exact ⟨[], by simp [walkStmts, hl], by simp [netDepth], by simp [minPre]⟩
  · -- walkExprs
    intro l s hm
    by_cases hl : l.length > 0
    · obtain ⟨tr, htr, hn, hp⟩ :=
        ((IH (k - 1) (by omega)).1) (some (.exprs l)) s
          (by simp [optW, nodeW]; omega)
      exact ⟨tr, by simpa [walkExprs, hl] using htr, hn, hp⟩
    · exact ⟨[], by simp [walkExprs, hl], by simp [netDepth], by simp [minPre]⟩
  · -- walkList
    intro l s hm
    cases l with
    | nil =>
      exact ⟨[], by simp [walkList], by simp [netDepth], by simp [minPre]⟩
    | cons x xs =>
      obtain ⟨tr1, htr1, hn1, hp1⟩ :=
        ((IH (k - 1) (by simp [listW] at hm; omega)).1) x s
          (by simp [listW] at hm; omega)
      obtain ⟨tr2, htr2, hn2, hp2⟩ :=
        ((IH (k - 1) (by simp [listW] at hm; omega)).2.2.2.2) xs s
          (by simp [listW] at hm; omega)
      refine ⟨tr1 ++ tr2, ?_, (balanced_append _ _ hn1 hp1 hn2 hp2).1,
        (balanced_append _ _ hn1 hp1 hn2 hp2).2⟩
      rw [walkList.eq_def]
      simp only [htr1, htr2]

/-! ## General facts about the scanners -/

theorem takeWhile_append_all (p : Char → Bool) (a b : List Char)
    (ha : ∀ c ∈ a, p c = true) :
    (a ++ b).takeWhile p = a ++ b.takeWhile p := by
  induction a with
  | nil => simp
  | cons c r ih =>
    have hc : p c = true := ha c (by simp)
    simp [List.takeWhile_cons, hc]
    exact ih (fun x hx => ha x (by simp [hx]))

theorem dropWhile_append_all (p : Char → Bool) (a b : List Char)
    (ha : ∀ c ∈ a, p c = true) :
    (a ++ b).dropWhile p = b.dropWhile p := by
  induction a with
  | nil => simp
  | cons c r ih =>
    have hc : p c = true := ha c (by simp)
    simp [List.dropWhile_cons, hc]
    exact ih (fun x hx => ha x (by simp [hx]))

theorem takeWhile_head_false (p : Char → Bool) (b : List Char)
    (hb : ∀ c, peek b = some c → p c = false) :
    b.takeWhile p = [] := by
  cases b with
  | nil => simp
  | cons c r =>
    have := hb c (by simp [peek])
    simp [List.takeWhile_cons, this]

theorem dropWhile_head_false (p : Char → Bool) (b : List Char)
    (hb : ∀ c, peek b = some c → p c = false) :
    b.dropWhile p = b := by
  cases b with
  | nil => simp
  | cons c r =>
    have := hb c (by simp [peek])
    simp [List.dropWhile_cons, this]

/-- Inside a double-quoted region the scanner, on seeing a backslash, takes
the default branch and re-runs scanDoubleQuotedIdent, which scans a
zero-length run (backslash is in the special set) and fails with
ExpectIdentError. -/
theorem scanDoubleQuotedLoop_backslash (str : StrExpr) (inp : Input)
    (hp : peek inp = some '\\') :
    scanDoubleQuotedLoop str inp = .error .expectIdent := by
  rw [scanDoubleQuotedLoop_step str inp '\\' hp (by decide) (by decide)]
  cases inp with
  | nil => simp [peek] at hp
  | cons c r =>
    simp [peek] at hp
    subst hp
    simp [scanDoubleQuotedIdent, List.takeWhile_cons, isDoubleQuotedIdentChar,
      isDoubleQuotedSpecialChar, doubleQuotedSpecials]

/-- The single-quoted counterpart: a backslash makes the scan fail with
ExpectIdentError. -/
theorem scanSingleQuotedLoop_backslash (str : StrExpr) (inp : Input)
    (hp : peek inp = some '\\') :
    scanSingleQuotedLoop str inp = .error .expectIdent := by
  rw [scanSingleQuotedLoop_step str inp '\\' hp (by decide)]
  cases inp with
  | nil => simp [peek] at hp
  | cons c r =>
    simp [peek] at hp
    subst hp
    simp [scanSingleQuotedIdent, List.takeWhile_cons, isSingleQuotedIdentChar,
      isSingleQuotedSpecialChar, singleQuotedSpecials]

/-- The word assembler only ever appends fragments: any successful run
returns a fragment sequence at least as long as the accumulator it started
from. -/
theorem scanStrsLoop_grow (w : Bool) (str : StrExpr) (inp : Input)
    (t : Tok) (v : StrExpr) (rest : Input)
    (h : scanStrsLoop w str inp = .ok (t, v, rest)) : str.length ≤ v.length := by
  induction w, str, inp using scanStrsLoop.induct
  all_goals rw [scanStrsLoop.eq_def] at h
  all_goals simp_all
  all_goals try omega
  all_goals (split at h <;> simp_all <;> omega)

/-- scanFD on a non-empty, in-range digit run: the run is collected whole and
converts successfully, leaving the first non-digit unconsumed. -/
theorem scanFD_ok (ds rest : Input) (hne : ds ≠ [])
    (hds : ∀ c ∈ ds, isNumber (some c) = true)
    (hrest : ∀ c, peek rest = some c → isNumber (some c) = false)
    (hmax : (digitsToNat ds : Int) ≤ goMaxInt) :
    scanFD ('&' :: (ds ++ rest)) = .ok (.fd (digitsToNat ds), rest) := by
  have hdash : ¬ peek (ds ++ rest) = some '-' := by
    cases ds with
    | nil => exact absurd rfl hne
    | cons d ds' =>
      intro hcon
      simp [peek] at hcon
      have := hds d (by simp)
      rw [hcon] at this
      simp [isNumber] at this
  have htake : (ds ++ rest).takeWhile (fun c => isNumber (some c)) = ds := by
    rw [takeWhile_append_all _ _ _ (fun c hc => hds c hc)]
    rw [takeWhile_head_false _ _ hrest]
    simp
  have hdrop : (ds ++ rest).dropWhile (fun c => isNumber (some c)) = rest := by
    rw [dropWhile_append_all _ _ _ (fun c hc => hds c hc)]
    exact dropWhile_head_false _ _ hrest
  have hall : ds.all (fun c => decide ('0' ≤ c ∧ c ≤ '9')) = true := by
    rw [List.all_eq_true]
    intro c hc
    have := hds c hc
    simpa [isNumber] using this
  have hatoi : atoi ds = some ((digitsToNat ds : Int)) := by
    unfold atoi
    rw [if_neg (by simp [hne]),
      if_neg (by simp only [List.all_eq_true] at hall
                 simp
                 intro x hx
                 have := hall x hx
                 simpa using this),
      if_pos hmax]
  simp only [scanFD, next]
  rw [if_neg hdash]
  simp only [htake, hdrop, hatoi]

/-- scanFD when the character after the '&' is neither '-' nor a digit
(including end of input): the collected run is empty and strconv.Atoi fails,
so scanFD surfaces the conversion error. -/
theorem scanFD_err (rest : Input)
    (hdash : peek rest ≠ some '-')
    (hd : ∀ c, peek rest = some c → isNumber (some c) = false) :
    scanFD ('&' :: rest) = .error .atoiErr := by
  have htake : rest.takeWhile (fun c => isNumber (some c)) = [] :=
    takeWhile_head_false _ _ hd
  simp only [scanFD, next, htake, hdash, if_neg]
  simp [atoi]

/-- The literal-concatenation part of tokenOf, compared against the spec's
wording: it yields the concatenated text exactly when every fragment is an
Ident, and nothing otherwise. -/
theorem tokenOfLit_spec (e : StrExpr) :
    tokenOfLit e = if e.all isIdentFrag then some (litOf e) else none := by
  induction e with
  | nil => simp [tokenOfLit, litOf]
  | cons f r ih =>
    cases f with
    | ident n =>
      by_cases hr : r.all isIdentFrag
      · simp [tokenOfLit, litOf, fragText, isIdentFrag, ih, hr]
      · simp [tokenOfLit, litOf, fragText, isIdentFrag, ih, hr]
    | varExpr n => simp [tokenOfLit, isIdentFrag]
    | fd n => simp [tokenOfLit, isIdentFrag]

/-- tokenOf agrees with the spec's keyword-resolution rule: a keyword token
exactly when every fragment is an Ident and the concatenated text is in the
keyword table. -/
theorem tokenOf_spec (e : StrExpr) : tokenOf e = specKeywordOf e := by
  rw [tokenOf, tokenOfLit_spec, specKeywordOf]
  by_cases h : e.all isIdentFrag
  · simp [h]
  · simp [h]

/-- A comment that is not followed by a newline anywhere in the rest of the
input makes skipComment diverge. -/
theorem skipComment_none (inp : Input) (h : '\n' ∉ inp) : skipComment inp = none := by
  have hni : ¬ (inp.any (fun c => c = '\n') = true) := by
    rw [List.any_eq_true]
    rintro ⟨x, hx, hxe⟩
    simp at hxe
    subst hxe
    exact h hx
  rw [skipComment, if_neg hni]

/-- mainLex on a '#' lookahead with no newline remaining: the comment skip
never terminates. -/
theorem mainLex_diverges (inp : Input)
    (hp : peek (skipBrank inp) = some '#') (h : '\n' ∉ inp) :
    mainLex inp = .diverges := by
  rw [mainLex_comment inp hp]
  have h2 : '\n' ∉ skipBrank inp := by
    intro hc
    simp only [skipBrank] at hc
    exact h ((List.dropWhile_sublist _).subset hc)
  rw [skipComment_none _ h2]

/-- If the word assembler is entered on an ordinary (non-special) character,
the first step appends a literal fragment, and every successful outcome
carries a non-empty fragment sequence. -/
theorem scanStrs_identChar_nonempty (inp : Input) (c : Char)
    (hp : peek inp = some c) (hc : isIdentChar (some c) = true)
    (t : Tok) (v : StrExpr) (rest : Input)
    (h : scanStrs inp = .ok (t, v, rest)) : v ≠ [] := by
  have hsp : isSpecialChar (peek inp) = false := by
    rw [hp]
    simpa [isIdentChar] using hc
  rw [scanStrs, scanStrsLoop_default false [] inp hsp] at h
  cases hscan : scanIdent inp with
  | error e => rw [hscan] at h; simp at h
  | ok p =>
    obtain ⟨id, rest1⟩ := p
    rw [hscan] at h
    simp only [] at h
    have := scanStrsLoop_grow false [id] rest1 t v rest h
    intro hv
    subst hv
    simp at this

/-! ## Claims -/

/-- C1, counterexample: the claim says scanning a quoted region that
contains a backslash succeeds with the backslash kept as a literal, but the
scan of both "a\b" (double-quoted) and 'a\b' (single-quoted) fails with
ExpectIdentError. -/
theorem C1_counterexample :
    scanDoubleQuoted ('"' :: 'a' :: '\\' :: 'b' :: '"' :: []) = .error .expectIdent ∧
    scanSingleQuoted ('\'' :: 'a' :: '\\' :: 'b' :: '\'' :: []) = .error .expectIdent := by
  constructor
  · simp [scanDoubleQuoted, scanDoubleQuotedLoop_step, scanDoubleQuotedLoop_close,
      scanDoubleQuotedLoop_var, scanDoubleQuotedLoop_eof, scanDoubleQuotedIdent,
      isDoubleQuotedIdentChar, isDoubleQuotedSpecialChar, doubleQuotedSpecials, peek, next]
  · simp [scanSingleQuoted, scanSingleQuotedLoop_step, scanSingleQuotedLoop_close,
      scanSingleQuotedLoop_eof, scanSingleQuotedIdent,
      isSingleQuotedIdentChar, isSingleQuotedSpecialChar, singleQuotedSpecials, peek, next]

/-- C1, amended: a backslash inside a single- or double-quoted region is not
treated as an ordinary literal character; whenever either quote scanner's
lookahead is a backslash, the default branch scans a zero-length literal run
and the whole scan fails with ExpectIdentError, so a backslash never ends up
in any Ident fragment.  In particular scanning "a\b" and 'a\b' fails. -/
theorem C1_amended :
    (∀ (str : StrExpr) (inp : Input), peek inp = some '\\' →
      scanDoubleQuotedLoop str inp = .error .expectIdent ∧
      scanSingleQuotedLoop str inp = .error .expectIdent) ∧
    scanDoubleQuoted ('"' :: 'a' :: '\\' :: 'b' :: '"' :: []) = .error .expectIdent ∧
    scanSingleQuoted ('\'' :: 'a' :: '\\' :: 'b' :: '\'' :: []) = .error .expectIdent := by
  refine ⟨fun str inp hp => ⟨scanDoubleQuotedLoop_backslash str inp hp,
    scanSingleQuotedLoop_backslash str inp hp⟩, ?_, ?_⟩
  · simp [scanDoubleQuoted, scanDoubleQuotedLoop_step, scanDoubleQuotedLoop_close,
      scanDoubleQuotedLoop_var, scanDoubleQuotedLoop_eof, scanDoubleQuotedIdent,
      isDoubleQuotedIdentChar, isDoubleQuotedSpecialChar, doubleQuotedSpecials, peek, next]
  · simp [scanSingleQuoted, scanSingleQuotedLoop_step, scanSingleQuotedLoop_close,
      scanSingleQuotedLoop_eof, scanSingleQuotedIdent,
      isSingleQuotedIdentChar, isSingleQuotedSpecialChar, singleQuotedSpecials, peek, next]

/-- C1, witness for the amended theorem at the concrete input backslash-b. -/
theorem C1_amended_witness :
    scanDoubleQuotedLoop [] ('\\' :: 'b' :: []) = .error .expectIdent ∧
    scanSingleQuotedLoop [] ('\\' :: 'b' :: []) = .error .expectIdent :=
  C1_amended.1 [] ('\\' :: 'b' :: []) rfl

/-- C2, counterexample: the claim says a STR token always carries a
non-empty fragment sequence and that on a lone special character such as
'&' the lexer returns a bare punctuation token instead; in fact mainLex on
the input "&" returns the STR token with an EMPTY payload (and does not even
consume the '&'). -/
theorem C2_counterexample :
    mainLex ('&' :: []) = .tok .str ⟨none, some []⟩ ('&' :: []) := by
  simp [mainLex_word, scanStrs, scanStrsLoop_special, skipBrank, isBrank, peek, next,
    isSpecialChar, specials, tokenOf, tokenOfLit, keywords]

/-- C2, amended: the lexer can return the STR token with an empty fragment
sequence: on a lone special character that mainLex's switch does not handle
(for example '&') the word assembler immediately hits the special-character
branch with no fragments collected, and mainLex returns STR with an empty
payload, leaving the character unconsumed.  The non-emptiness invariant does
hold whenever the word assembler is entered on an ordinary (non-special)
character: the first step then appends a literal fragment and fragments are
only ever appended, so every successful outcome has a non-empty payload. -/
theorem C2_amended :
    mainLex ('&' :: []) = .tok .str ⟨none, some []⟩ ('&' :: []) ∧
    (∀ (inp : Input) (c : Char) (t : Tok) (v : StrExpr) (rest : Input),
      peek inp = some c → isIdentChar (some c) = true →
      scanStrs inp = .ok (t, v, rest) → v ≠ []) := by
  constructor
  · simp [mainLex_word, scanStrs, scanStrsLoop_special, skipBrank, isBrank, peek, next,
      isSpecialChar, specials, tokenOf, tokenOfLit, keywords]
  · intro inp c t v rest hp hc h
    exact scanStrs_identChar_nonempty inp c hp hc t v rest h

/-- C2, witness for the amended theorem: the word "x&" starts with the
ordinary character 'x' and assembles to the non-empty payload [Ident "x"]. -/
theorem C2_amended_witness : ([Frag.ident "x"] : StrExpr) ≠ [] :=
  C2_amended.2 ('x' :: '&' :: []) 'x' .str [Frag.ident "x"] ('&' :: []) rfl (by decide)
    (by simp [scanStrs, scanStrsLoop_default, scanStrsLoop_special, scanIdent,
      peek, next, isSpecialChar, specials, isIdentChar])

/-- C3, counterexample: the claim says the third token of "echo(x)" is a
bare ')' punctuation token; in fact the third mainLex call (on the
remaining input ")") consumes the ')' while the word is still empty,
then reaches end of input (a special character) with the pending paren,
and returns the ')'-then-word fusion token RIGHT_PAREN_AND_STR with an
empty payload, not the bare ')' token. -/
theorem C3_counterexample :
    mainLex (')' :: []) = .tok .rightParenAndStr ⟨none, some []⟩ [] ∧
    Tok.rightParenAndStr ≠ Tok.char ')' := by
  constructor
  · simp [mainLex_word, scanStrs, scanStrsLoop_rparen_consume, scanStrsLoop_special,
      skipBrank, isBrank, peek, next, isSpecialChar, specials]
  · decide

/-- C3, amended: lexing the complete input "echo(x)" yields the
word-then-( fusion token STR_AND_LEFT_PAREN with payload [Ident "echo"],
then the STR token with payload [Ident "x"] (the ')' is left unconsumed),
then the ')'-then-word fusion token RIGHT_PAREN_AND_STR with an empty
payload (the lone ')' is glued to the empty word that follows it at end of
input, rather than lexing as a bare ')'), then the end-of-input token. -/
theorem C3_amended :
    mainLex ('e' :: 'c' :: 'h' :: 'o' :: '(' :: 'x' :: ')' :: []) =
      .tok .strAndLeftParen ⟨none, some [.ident "echo"]⟩ ('x' :: ')' :: []) ∧
    mainLex ('x' :: ')' :: []) = .tok .str ⟨none, some [.ident "x"]⟩ (')' :: []) ∧
    mainLex (')' :: []) = .tok .rightParenAndStr ⟨none, some []⟩ [] ∧
    mainLex ([] : Input) = .tok .eof noSym [] := by
  refine ⟨?_, ?_, ?_, ?_⟩
  · simp [mainLex_word, scanStrs, scanStrsLoop_default, scanStrsLoop_lparen, scanIdent,
      skipBrank, isBrank, peek, next, isSpecialChar, specials, isIdentChar,
      tokenOf, tokenOfLit, keywords]
  · simp [mainLex_word, scanStrs, scanStrsLoop_default, scanStrsLoop_rparen_word, scanIdent,
      skipBrank, isBrank, peek, next, isSpecialChar, specials, isIdentChar,
      tokenOf, tokenOfLit, keywords]
  · simp [mainLex_word, scanStrs, scanStrsLoop_rparen_consume, scanStrsLoop_special,
      skipBrank, isBrank, peek, next, isSpecialChar, specials]
  · simp [mainLex_eof, skipBrank, peek]

/-- C4: evaluating the lexer on the three claimed inputs.  ">&3" does lex as
a single to-fd redirect token carrying FD(3) followed by end of input, as
the claim says; but ">&-" leaves the '-' unconsumed (scanFD returns FD(-1)
without calling Next), so a spurious STR token ["-"] follows, and ">>"
leaves the second '>' unconsumed (the APPEND_REDIRECT case returns without
Next), so a spurious '>' token follows — the whole operator is NOT consumed
and more than one token is produced before end of input. -/
theorem C4_code_eval :
    mainLex ('>' :: '&' :: '-' :: []) =
      .tok .redirectToFd ⟨some [.fd (-1)], none⟩ ('-' :: []) ∧
    mainLex ('-' :: []) = .tok .str ⟨none, some [.ident "-"]⟩ [] ∧
    mainLex ('>' :: '>' :: []) = .tok .appendRedirect noSym ('>' :: []) ∧
    mainLex ('>' :: []) = .tok (.char '>') noSym [] ∧
    mainLex ('>' :: '&' :: '3' :: []) = .tok .redirectToFd ⟨some [.fd 3], none⟩ [] ∧
    mainLex ([] : Input) = .tok .eof noSym [] := by
  refine ⟨?_, ?_, ?_, ?_, ?_, ?_⟩
  · simp [mainLex_gt, scanFD, skipBrank, isBrank, peek, next]
  · simp [mainLex_word, scanStrs, scanStrsLoop_default, scanStrsLoop_special, scanIdent,
      skipBrank, isBrank, peek, next, isSpecialChar, specials, isIdentChar,
      tokenOf, tokenOfLit, keywords]
  · simp [mainLex_gt, skipBrank, isBrank, peek, next]
  · simp [mainLex_gt, skipBrank, isBrank, peek, next]
  · simp [mainLex_gt, scanFD, atoi, digitsToNat, goMaxInt, isNumber,
      skipBrank, isBrank, peek, next]
  · simp [mainLex_eof, skipBrank, peek]

/-- C5, counterexample: the claim says the conversion-failure branch of
scanFD is unreachable for every input starting ">&" not followed by '-';
but on ">&x" the digit loop collects an empty run, strconv.Atoi fails on
the empty string, and the lexer surfaces the conversion error. -/
theorem C5_counterexample :
    mainLex ('>' :: '&' :: 'x' :: []) = .fail .atoiErr ∧
    scanFD ('&' :: 'x' :: []) = .error .atoiErr := by
  constructor
  · simp [mainLex_gt, scanFD, atoi, isNumber, skipBrank, isBrank, peek, next]
  · simp [scanFD, atoi, isNumber, peek, next]

/-- C5, amended: the conversion-failure branch of scanFD is reachable.  The
collected run always consists of digit characters only, and a NON-EMPTY run
whose value fits the 64-bit int range converts successfully (first
conjunct, with the first non-digit left unconsumed); but when the character
after the '&' is neither '-' nor a digit — including end of input — the
collected run is empty, strconv.Atoi fails, and scanFD returns the
conversion error (second conjunct; e.g. input ">&x"). -/
theorem C5_amended :
    (∀ (ds rest : Input), ds ≠ [] →
      (∀ c ∈ ds, isNumber (some c) = true) →
      (∀ c, peek rest = some c → isNumber (some c) = false) →
      (digitsToNat ds : Int) ≤ goMaxInt →
      scanFD ('&' :: (ds ++ rest)) = .ok (.fd (digitsToNat ds), rest)) ∧
    (∀ rest : Input, peek rest ≠ some '-' →
      (∀ c, peek rest = some c → isNumber (some c) = false) →
      scanFD ('&' :: rest) = .error .atoiErr) := by
  exact ⟨scanFD_ok, scanFD_err⟩

/-- C5, witness for the amended theorem: the digit run "3" followed by 'x'
converts to FD(3), and "&x" takes the failure branch. -/
theorem C5_amended_witness :
    scanFD ('&' :: (('3' :: []) ++ ('x' :: []))) =
      .ok (.fd (digitsToNat ('3' :: [])), 'x' :: []) ∧
    scanFD ('&' :: 'x' :: []) = .error .atoiErr := by
  constructor
  · exact C5_amended.1 ('3' :: []) ('x' :: []) (by decide)
      (by decide) (by decide) (by decide)
  · exact C5_amended.2 ('x' :: []) (by decide) (by decide)

/-- C6: the next-token operation does NOT terminate on every finite input.
When the lookahead is '#' and a newline follows somewhere, the comment is
skipped and the lexer retries, producing the following token (second
conjunct: "#x\ny" yields the '\n' token); but when the comment is the last
line with no trailing newline, skipComment's loop condition
(Peek() != '\n') stays true at end of input while Next() is a no-op, so the
Go loop spins forever (first and third conjuncts; the denotation of the
diverging run is LexResult.diverges). -/
theorem C6_code_eval :
    (∀ inp : Input, peek (skipBrank inp) = some '#' → '\n' ∉ inp →
      mainLex inp = .diverges) ∧
    mainLex ('#' :: 'x' :: '\n' :: 'y' :: []) = .tok (.char '\n') noSym ('y' :: []) ∧
    mainLex ('#' :: 'x' :: []) = .diverges := by
  refine ⟨mainLex_diverges, ?_, ?_⟩
  · simp [mainLex_comment, mainLex_punct, skipComment, skipBrank, isBrank, peek, next]
  · simp [mainLex_comment, skipComment, skipBrank, isBrank, peek, next]

/-- C6, witness: the general divergence statement applied to the concrete
comment "#x" with no trailing newline. -/
theorem C6_code_eval_witness : mainLex ('#' :: 'x' :: []) = .diverges :=
  C6_code_eval.1 ('#' :: 'x' :: []) rfl (by decide)

/-- C7: evaluating the walker at the failing input.  When the callback
signals stop (returns false) on a node that has a non-nil child, Go's Walk
still recurses with the nil continuation and calls it on the child — a
runtime panic (first conjunct, denoted .error ()); the traversal does NOT
complete normally.  Stopping on a childless leaf is harmless: the walk
completes with just the entry and exit invocations of the leaf (second
conjunct). -/
theorem C7_code_eval :
    Inspect (fun _ => false) (some (.cmdStmt (some (.ident "x")) [])) = .error () ∧
    Inspect (fun _ => false) (some (.ident "x")) = .ok [some (.ident "x"), none] := by
  constructor
  · simp [Inspect, Walk, walkChildren, walkExprs, walkList, inspectStep]
  · simp [Inspect, Walk, walkChildren, inspectStep]

/-- C8, counterexample: the claim says the walker never invokes the callback
on an empty container; but for a block (BeginStmt) with an empty body, Walk
passes Stmts(body) to Walk unguarded — the typed empty slice is a non-nil
interface value — so the callback IS invoked on the empty Stmts container
(the trace contains its entry event). -/
theorem C8_counterexample :
    Inspect (fun _ => true) (some (.beginStmt [])) =
      .ok [some (.beginStmt []), some (.stmts []), none, none] ∧
    (some (Node.stmts []) : Event) ∈
      [some (Node.beginStmt []), some (Node.stmts []), none, none] := by
  constructor
  · simp [Inspect, Walk, walkChildren, walkStmts, walkExprs, walkList, inspectStep]
  · exact List.Mem.tail _ (List.Mem.head _)

/-- C8, amended: empty bodies reached through the guarded helpers walkStmts
and walkExprs — a conditional's then/else bodies, a function definition's
parameters and body, a command's argument list — are skipped entirely: the
helpers return at once and contribute no callback invocation (first
conjunct, for every visitor).  A block's body, however, is passed to Walk
unguarded, so a BeginStmt with an empty body does invoke the callback on
the empty Stmts container (third conjunct), unlike e.g. a conditional with
empty then- and else-bodies, whose walk invokes the callback on no
container at all (second conjunct). -/
theorem C8_amended :
    (∀ (S : Type) (step : S → Option Node → Option S) (f : Option S),
      walkStmts step f [] = .ok [] ∧ walkExprs step f [] = .ok []) ∧
    Inspect (fun _ => true) (some (.ifStmt (some (.ident "c")) [] [])) =
      .ok [some (.ifStmt (some (.ident "c")) [] []), some (.ident "c"), none, none] ∧
    Inspect (fun _ => true) (some (.beginStmt [])) =
      .ok [some (.beginStmt []), some (.stmts []), none, none] := by
  refine ⟨fun S step f => ⟨by simp [walkStmts], by simp [walkExprs]⟩, ?_, ?_⟩
  · simp [Inspect, Walk, walkChildren, walkStmts, walkExprs, walkList, inspectStep]
  · simp [Inspect, Walk, walkChildren, walkStmts, walkExprs, walkList, inspectStep]

/-- C9: for every AST node and every visitor that never signals stop, the
walk completes without faulting and its trace of callback invocations is a
well-formed bracketing: the number of entry invocations equals the number
of exit-marker invocations, and no prefix of the trace closes more brackets
than it has opened (minPre = 0 together with netDepth = 0 is exactly the
Dyck-word characterisation, i.e. every child's entry/exit pair is nested
within its parent's pair). -/
theorem C9_walk_balanced (S : Type) (step : S → Option Node → Option S)
    (s : S) (n : Node) (H : ∀ s x, (step s x).isSome = true) :
    ∃ tr, Walk step (some s) (some n) = .ok tr ∧
      entries tr = exitsCount tr ∧ netDepth tr = 0 ∧ minPre tr = 0 := by
  obtain ⟨tr, htr, hn, hp⟩ :=
    ((walkAux step H (4 * optW (some n) + 1)).1) (some n) s (le_refl _)
  refine ⟨tr, htr, ?_, hn, hp⟩
  have := netDepth_count tr
  rw [hn] at this
  omega

/-- C9, witness: the balanced-walk theorem applied to a concrete two-level
command node with the constant always-descend visitor. -/
theorem C9_walk_balanced_witness :
    ∃ tr, Walk (fun (_ : Unit) (_ : Option Node) => some ()) (some ())
        (some (.cmdStmt (some (.ident "x")) [some (.ident "a")])) = .ok tr ∧
      entries tr = exitsCount tr ∧ netDepth tr = 0 ∧ minPre tr = 0 :=
  C9_walk_balanced Unit (fun _ _ => some ()) ()
    (.cmdStmt (some (.ident "x")) [some (.ident "a")]) (fun _ _ => rfl)

/-- C10: keyword resolution.  tokenOf re-tags a word if and only if every
fragment is an Ident and the concatenated text is one of the five keywords
(first conjunct: tokenOf agrees extensionally with the spec's rule
specKeywordOf); the bare word "if" lexes as the IF keyword token with no
payload (the lval slots stay empty), while "i$f" lexes as a STR token whose
payload mixes an Ident and a VarExpr and is not re-tagged. -/
theorem C10_keyword_resolution :
    (∀ e : StrExpr, tokenOf e = specKeywordOf e) ∧
    mainLex ('i' :: 'f' :: []) = .tok .if_ noSym [] ∧
    mainLex ('i' :: '$' :: 'f' :: []) =
      .tok .str ⟨none, some [.ident "i", .varExpr "f"]⟩ [] := by
  refine ⟨tokenOf_spec, ?_, ?_⟩
  · simp [mainLex_word, scanStrs, scanStrsLoop_default, scanStrsLoop_special, scanIdent,
      skipBrank, isBrank, peek, next, isSpecialChar, specials, isIdentChar,
      tokenOf, tokenOfLit, keywords]
  · simp [mainLex_word, scanStrs, scanStrsLoop_default, scanStrsLoop_var, scanStrsLoop_special,
      scanIdent, scanVar, skipBrank, isBrank, peek, next, isSpecialChar, specials, isIdentChar,
      isVarChar, isLetter, isNumber, tokenOf, tokenOfLit, keywords]
